import Mathlib

/-!
Verification of the tomb goroutine-lifecycle tracker.

Two generations of the package are embedded:

* `Tomb1` models the multi-goroutine tracker (struct `Tomb` with fields
  `alive`, `dying`, `dead`, `reason`, methods `init`, `Go`, `run`, `Kill`,
  `kill`, `Wait`, `Err`, `Alive`).
* `TombV2` models the single-goroutine variant (struct `Tomb` with fields
  `state`, `dying`, `dead`, `reason`, methods `init`, `Kill`, `Done`, `Wait`).

Modelling conventions:

* A Go `error` value is `Option GoError`: `none` is the nil error, and
  `GoError.real k` stands for an arbitrary distinct non-sentinel error value.
* A channel used purely as a broadcast signal is modelled by the number of
  times `close` has been executed on it (`dyingCloses`, `deadCloses`);
  the channel is observably closed when the count is nonzero, and a
  double close (which panics in Go) shows up as a count above one.
* The lazy-initialization test `t.dead == nil` is the `initialized` flag.
* A function that can panic returns `Option`, `none` meaning panic.
* The mutex serializes every critical section, so an execution is a
  sequence of atomic steps; `ReachesP` enumerates the executions, with the
  step for a tracked goroutine finishing enabled only while the count of
  started-but-unfinished goroutines (`alive`) is positive.
-/

namespace Tomb1

/-- Error values that can flow through the first tomb version: the two
package sentinels `ErrStillAlive` and `ErrDying`, and arbitrary other
("real") error values indexed by a natural number. -/
inductive GoError where
  | stillAlive : GoError
  | dying : GoError
  | real : Nat → GoError
deriving DecidableEq

/-- The `Tomb` struct of the multi-goroutine version: `alive` is the Go
`int` count of started-but-unfinished goroutines, the two channels are
close counters, `reason` is the recorded death reason (`none` = nil),
and `initialized` models `dead != nil` after `init` ran. -/
structure Tomb where
  initialized : Bool
  alive : Int
  dyingCloses : Nat
  deadCloses : Nat
  reason : Option GoError
deriving DecidableEq

/-- The zero value of `Tomb`: nil channels, nil reason, zero count. -/
def zeroTomb : Tomb :=
  { initialized := false, alive := 0, dyingCloses := 0, deadCloses := 0, reason := none }

/-- `func (t *Tomb) init()`: if `t.dead == nil`, create both channels and
set `reason = ErrStillAlive`. -/
def Tomb.init (t : Tomb) : Tomb :=
  if t.initialized then t
  else { t with initialized := true, reason := some .stillAlive }

/-- `func (t *Tomb) kill(reason error)` (runs with the lock held):
panic on `ErrStillAlive`; on `ErrDying` panic if still alive, else no-op;
otherwise record the reason when the current one is `ErrStillAlive`
(also closing `dying`) or nil, and discard it otherwise. -/
def Tomb.kill (t : Tomb) (reason : Option GoError) : Option Tomb :=
  if reason = some .stillAlive then none
  else if reason = some .dying then
    if t.reason = some .stillAlive then none else some t
  else if t.reason = some .stillAlive then
    some { t with reason := reason, dyingCloses := t.dyingCloses + 1 }
  else if t.reason = none then
    some { t with reason := reason }
  else some t

/-- `func (t *Tomb) Kill(reason error)`: init, lock, `kill`, unlock. -/
def Tomb.Kill (t : Tomb) (reason : Option GoError) : Option Tomb :=
  (t.init).kill reason

/-- The body of `func (t *Tomb) run(f func() error)` after `f` has
returned `err`: under the lock, decrement `alive`; if `alive == 0` or
`err != nil`, call `kill(err)` and, when `alive == 0`, close `dead`. -/
def Tomb.run (t : Tomb) (err : Option GoError) : Option Tomb :=
  let t1 : Tomb := { t with alive := t.alive - 1 }
  if t1.alive = 0 ∨ err ≠ none then
    (t1.kill err).map fun t2 =>
      if t2.alive = 0 then { t2 with deadCloses := t2.deadCloses + 1 }
      else t2
  else some t1

/-- `func (t *Tomb) Go(f ...func() error)` with `n = len(f)`: init, lock;
if `dead` is already closed return at once, else add `n` to `alive`
(each supplied function is then started as a goroutine, which later
performs a `run` step). -/
def Tomb.Go (t : Tomb) (n : Nat) : Tomb :=
  let t1 := t.init
  if t1.deadCloses ≠ 0 then t1
  else { t1 with alive := t1.alive + (n : Int) }

/-- `func (t *Tomb) Wait() error`: init, receive from `dead`, return
`reason`. The result is `none` when the receive blocks forever (the
`dead` channel unclosed), and `some r` when it returns reason `r`. -/
def Tomb.Wait (t : Tomb) : Option (Option GoError) :=
  let t1 := t.init
  if t1.deadCloses ≠ 0 then some t1.reason else none

/-- `func (t *Tomb) Err() (reason error)`: init, return `reason`. -/
def Tomb.Err (t : Tomb) : Option GoError :=
  (t.init).reason

/-- `func (t *Tomb) Alive() bool`: `t.Err() == ErrStillAlive`. -/
def Tomb.Alive (t : Tomb) : Bool :=
  t.Err == some .stillAlive

/-- Executions of the tracker whose externally supplied reasons (goroutine
results and `Kill` arguments) all satisfy `P`: the zero tomb is reachable;
any read operation may lazily `init`; `Go` may register `n` goroutines;
a started goroutine may finish (enabled while `alive` is positive); and
any caller may invoke `Kill`.  Steps that would panic have no successor. -/
inductive ReachesP (P : Option GoError → Prop) : Tomb → Prop where
  | zero : ReachesP P zeroTomb
  | initStep {t : Tomb} : ReachesP P t → ReachesP P t.init
  | goStep {t : Tomb} (n : Nat) : ReachesP P t → ReachesP P (t.Go n)
  | finishStep {t u : Tomb} {e : Option GoError} :
      ReachesP P t → 0 < t.alive → P e → t.run e = some u → ReachesP P u
  | killStep {t u : Tomb} {r : Option GoError} :
      ReachesP P t → P r → t.Kill r = some u → ReachesP P u

/-- Reachable tracker states, with no constraint on the supplied reasons. -/
abbrev Reaches (t : Tomb) : Prop := ReachesP (fun _ => True) t

/-- `Extends t u`: state `u` arises from state `t` by some further
sequence of tracker operations. -/
inductive Extends : Tomb → Tomb → Prop where
  | refl (t : Tomb) : Extends t t
  | initStep {t u : Tomb} : Extends t u → Extends t u.init
  | goStep {t u : Tomb} (n : Nat) : Extends t u → Extends t (u.Go n)
  | finishStep {t u v : Tomb} {e : Option GoError} :
      Extends t u → 0 < u.alive → u.run e = some v → Extends t v
  | killStep {t u v : Tomb} {r : Option GoError} :
      Extends t u → u.Kill r = some v → Extends t v

/-- The phase of the tracker read off the state: 0 uninitialized,
1 running, 2 dying, 3 dead. -/
def phaseIdx (t : Tomb) : Nat :=
  if t.deadCloses ≠ 0 then 3
  else if t.dyingCloses ≠ 0 then 2
  else if t.initialized = true then 1
  else 0

/-- The reason-reduction rule of spec section 4.2, written from the
spec's words: the cancellation-acknowledgement sentinel changes nothing;
otherwise a new reason overwrites an absent or still-running reason and
is discarded in favour of an already recorded real one. -/
def reduceReason (cur e : Option GoError) : Option GoError :=
  if e = some .dying then cur
  else if cur = some .stillAlive ∨ cur = none then e
  else cur

/-- State invariant maintained by every execution: each channel closed at
most once, an uninitialized state is the zero state, the reason is the
still-alive sentinel exactly while initialized with `dying` unclosed,
a closed `dead` channel forces `alive = 0` and a closed `dying` channel,
`ErrDying` is never stored, and `alive` never goes negative. -/
structure Inv (t : Tomb) : Prop where
  dyingOnce : t.dyingCloses ≤ 1
  deadOnce : t.deadCloses ≤ 1
  uninit_zero : t.initialized = false → t = zeroTomb
  still_iff : t.reason = some .stillAlive ↔ (t.initialized = true ∧ t.dyingCloses = 0)
  dead_alive : t.deadCloses ≠ 0 → t.alive = 0
  dead_dying : t.deadCloses ≠ 0 → t.dyingCloses ≠ 0
  no_dying : t.reason ≠ some .dying
  alive_nonneg : 0 ≤ t.alive

end Tomb1

namespace TombV2

/-- Error values of the single-goroutine variant: the `errCleanStop`
sentinel and arbitrary real errors.  (`ErrStillRunning` is only ever
returned by `Err`, never stored in `reason`, so it needs no constructor.) -/
inductive VErr where
  | cleanStop : VErr
  | real : Nat → VErr
deriving DecidableEq

/-- The `state` enum of the variant. -/
inductive VState where
  | uninitialized : VState
  | running : VState
  | dying : VState
deriving DecidableEq

/-- The `Tomb` struct of the single-goroutine variant; channels are again
close counters and `reason` is `none` for nil. -/
structure Tomb where
  state : VState
  dyingCloses : Nat
  deadCloses : Nat
  reason : Option VErr
deriving DecidableEq

/-- The zero value of the variant `Tomb`. -/
def zeroTomb : Tomb :=
  { state := .uninitialized, dyingCloses := 0, deadCloses := 0, reason := none }

/-- `func (t *Tomb) init()`: promote an uninitialized tomb to `running`
(creating both channels). -/
def Tomb.init (t : Tomb) : Tomb :=
  if t.state = .uninitialized then { t with state := .running } else t

/-- `func (t *Tomb) Kill(reason error)`: init; normalize nil to
`errCleanStop`; under the lock overwrite `reason` when the current one is
nil or `errCleanStop`; if still `running`, close `dying` and move to
`dying`. -/
def Tomb.Kill (t : Tomb) (reason : Option VErr) : Tomb :=
  let t1 := t.init
  let r := if reason = none then some VErr.cleanStop else reason
  let t2 := if t1.reason = none ∨ t1.reason = some .cleanStop then { t1 with reason := r } else t1
  if t2.state = .running then
    { t2 with dyingCloses := t2.dyingCloses + 1, state := .dying }
  else t2

/-- `func (t *Tomb) Done()`: init, `Kill(nil)`, close `dead`. -/
def Tomb.Done (t : Tomb) : Tomb :=
  let t1 := t.init
  let t2 := t1.Kill none
  { t2 with deadCloses := t2.deadCloses + 1 }

/-- `func (t *Tomb) Wait() error`: init, receive from `dead`, then return
nil when the reason is `errCleanStop` and the reason otherwise; `none`
models the receive blocking forever. -/
def Tomb.Wait (t : Tomb) : Option (Option VErr) :=
  let t1 := t.init
  if t1.deadCloses ≠ 0 then
    some (if t1.reason = some .cleanStop then none else t1.reason)
  else none

end TombV2

namespace Tomb1

lemma init_initialized (t : Tomb) : (t.init).initialized = true := by
  unfold Tomb.init
  split <;> simp_all

lemma init_of_initialized {t : Tomb} (h : t.initialized = true) : t.init = t := by
  unfold Tomb.init
  simp [h]

lemma init_frame (t : Tomb) :
    (t.init).alive = t.alive ∧ (t.init).dyingCloses = t.dyingCloses ∧
      (t.init).deadCloses = t.deadCloses := by
  unfold Tomb.init
  split <;> simp

lemma go_char (t : Tomb) (n : Nat) :
    t.Go n =
      if (t.init).deadCloses ≠ 0 then t.init
      else { t.init with alive := (t.init).alive + (n : Int) } := rfl

lemma run_char (t : Tomb) (e : Option GoError) :
    t.run e =
      if t.alive - 1 = 0 ∨ e ≠ none then
        ((({ t with alive := t.alive - 1 } : Tomb).kill e).map fun t2 =>
          if t2.alive = 0 then { t2 with deadCloses := t2.deadCloses + 1 } else t2)
      else some { t with alive := t.alive - 1 } := rfl

lemma kill_some {t u : Tomb} {r : Option GoError} (h : t.kill r = some u) :
    r ≠ some .stillAlive ∧
    u.alive = t.alive ∧ u.initialized = t.initialized ∧ u.deadCloses = t.deadCloses ∧
    u.dyingCloses =
      (if t.reason = some .stillAlive ∧ r ≠ some .dying then t.dyingCloses + 1
       else t.dyingCloses) ∧
    u.reason =
      (if r = some .dying then t.reason
       else if t.reason = some .stillAlive ∨ t.reason = none then r
       else t.reason) ∧
    (r = some .dying → t.reason ≠ some .stillAlive ∧ u = t) := by
  unfold Tomb.kill at h
  split_ifs at h with h1 h2 h3 h4 h5
  · injection h with h
    subst h
    simp_all
  · injection h with h
    subst h
    simp_all
  · injection h with h
    subst h
    simp_all
  · injection h with h
    subst h
    simp_all

lemma kill_reason_not_still {t u : Tomb} {r : Option GoError} (h : t.kill r = some u) :
    u.reason ≠ some .stillAlive := by
  obtain ⟨h1, -, -, -, -, hreas, hdy⟩ := kill_some h
  rw [hreas]
  split_ifs with c1 c2
  · exact (hdy c1).1
  · exact h1
  · push_neg at c2
    exact c2.1

lemma inv_zero : Inv zeroTomb := by
  refine ⟨?_, ?_, ?_, ?_, ?_, ?_, ?_, ?_⟩ <;> decide

lemma inv_init {t : Tomb} (ht : Inv t) : Inv t.init := by
  unfold Tomb.init
  split_ifs with h
  · exact ht
  · have hz : t = zeroTomb := ht.uninit_zero (by simpa using h)
    subst hz
    refine ⟨?_, ?_, ?_, ?_, ?_, ?_, ?_, ?_⟩ <;> decide

lemma inv_kill {t u : Tomb} {r : Option GoError} (ht : Inv t)
    (hinit : t.initialized = true) (h : t.kill r = some u) : Inv u := by
  obtain ⟨h1, ha, hi, hd, hdy, hr, hspec⟩ := kill_some h
  have huninit : u.initialized = false → u = zeroTomb := by
    intro hc
    rw [hi, hinit] at hc
    cases hc
  by_cases h2 : r = some .dying
  · rw [(hspec h2).2]
    exact ht
  · rw [if_neg h2] at hr
    by_cases h4 : t.reason = some .stillAlive
    · obtain ⟨-, hdy0⟩ := ht.still_iff.mp h4
      rw [if_pos ⟨h4, h2⟩] at hdy
      rw [if_pos (Or.inl h4)] at hr
      refine ⟨?_, ?_, huninit, ?_, ?_, ?_, ?_, ?_⟩
      · omega
      · rw [hd]
        exact ht.deadOnce
      · rw [hr, hdy]
        constructor
        · intro hc
          exact absurd hc h1
        · rintro ⟨-, hc⟩
          omega
      · intro hc
        rw [hd] at hc
        rw [ha]
        exact ht.dead_alive hc
      · intro _
        omega
      · rw [hr]
        exact h2
      · rw [ha]
        exact ht.alive_nonneg
    · have hkeep : u.dyingCloses = t.dyingCloses := by
        rw [hdy, if_neg]
        rintro ⟨hc, -⟩
        exact h4 hc
      have hdyne : t.dyingCloses ≠ 0 := by
        intro hc
        exact h4 (ht.still_iff.mpr ⟨hinit, hc⟩)
      have hreas : u.reason = r ∨ u.reason = t.reason := by
        rw [hr]
        split_ifs <;> simp
      refine ⟨?_, ?_, huninit, ?_, ?_, ?_, ?_, ?_⟩
      · rw [hkeep]
        exact ht.dyingOnce
      · rw [hd]
        exact ht.deadOnce
      · rw [hkeep]
        constructor
        · intro hc
          rcases hreas with hu | hu <;> rw [hu] at hc
          · exact absurd hc h1
          · exact absurd hc h4
        · rintro ⟨-, hc⟩
          exact absurd hc hdyne
      · intro hc
        rw [hd] at hc
        rw [ha]
        exact ht.dead_alive hc
      · intro hc
        rw [hkeep]
        rw [hd] at hc
        exact ht.dead_dying hc
      · rcases hreas with hu | hu <;> rw [hu]
        · exact h2
        · exact ht.no_dying
      · rw [ha]
        exact ht.alive_nonneg

lemma inv_go {t : Tomb} (ht : Inv t) (n : Nat) : Inv (t.Go n) := by
  rw [go_char]
  have hu := inv_init ht
  split_ifs with h
  · exact hu
  · refine ⟨hu.dyingOnce, hu.deadOnce, ?_, hu.still_iff, ?_, hu.dead_dying, hu.no_dying, ?_⟩
    · intro hc
      exact absurd (show (t.init).initialized = false from hc)
        (by simp [init_initialized t])
    · intro hc
      exact absurd hc h
    · show (0 : Int) ≤ (t.init).alive + (n : Int)
      have h1 := hu.alive_nonneg
      omega

lemma run_cases {t u : Tomb} {e : Option GoError} (ht : Inv t) (halive : 0 < t.alive)
    (h : t.run e = some u) :
    t.initialized = true ∧ t.deadCloses = 0 ∧
    u.alive = t.alive - 1 ∧ u.initialized = true ∧
    t.dyingCloses ≤ u.dyingCloses ∧
    (u.deadCloses ≠ 0 ↔ t.alive = 1) ∧
    u.reason = (if e ≠ none ∨ t.alive = 1 then reduceReason t.reason e else t.reason) ∧
    Inv u := by
  have hinit : t.initialized = true := by
    by_contra hc
    have hz := ht.uninit_zero (by simpa using hc)
    rw [hz] at halive
    exact absurd halive (by decide)
  have hdead0 : t.deadCloses = 0 := by
    by_contra hc
    have := ht.dead_alive hc
    omega
  have ht1 : Inv ({ t with alive := t.alive - 1 } : Tomb) := by
    refine ⟨ht.dyingOnce, ht.deadOnce, ?_, ht.still_iff, ?_, ht.dead_dying, ht.no_dying, ?_⟩
    · intro hc
      exact absurd (show t.initialized = false from hc) (by simp [hinit])
    · intro hc
      exact absurd (show t.deadCloses ≠ 0 from hc) (by simp [hdead0])
    · show (0 : Int) ≤ t.alive - 1
      omega
  rw [run_char] at h
  by_cases hg : t.alive - 1 = 0 ∨ e ≠ none
  · rw [if_pos hg] at h
    rcases hk : ({ t with alive := t.alive - 1 } : Tomb).kill e with _ | t2
    · rw [hk] at h
      simp at h
    · rw [hk, Option.map_some'] at h
      have hinv2 : Inv t2 := inv_kill ht1 (show _ = true from hinit) hk
      obtain ⟨he1, ha2, hi2, hd2, hdy2, hr2, -⟩ := kill_some hk
      have ha2' : t2.alive = t.alive - 1 := ha2
      have hi2' : t2.initialized = t.initialized := hi2
      have hd2' : t2.deadCloses = t.deadCloses := hd2
      have hdy2' : t2.dyingCloses =
          (if t.reason = some .stillAlive ∧ e ≠ some .dying then t.dyingCloses + 1
           else t.dyingCloses) := hdy2
      have hr2' : t2.reason =
          (if e = some .dying then t.reason
           else if t.reason = some .stillAlive ∨ t.reason = none then e
           else t.reason) := hr2
      have hns2 := kill_reason_not_still hk
      split_ifs at h with hz2
      · injection h with h
        subst h
        have htone : t.alive = 1 := by omega
        have hdyne : t2.dyingCloses ≠ 0 := by
          intro hcc
          exact hns2 (hinv2.still_iff.mpr ⟨hi2'.trans hinit, hcc⟩)
        refine ⟨hinit, hdead0, ha2', hi2'.trans hinit, ?_, ?_, ?_, ?_⟩
        · show t.dyingCloses ≤ t2.dyingCloses
          rw [hdy2']
          split_ifs <;> omega
        · show t2.deadCloses + 1 ≠ 0 ↔ t.alive = 1
          exact ⟨fun _ => htone, fun _ => by omega⟩
        · show t2.reason = _
          rw [if_pos (Or.inr htone), hr2']
          rfl
        · refine ⟨hinv2.dyingOnce, ?_, ?_, hinv2.still_iff, ?_, ?_, hinv2.no_dying,
            hinv2.alive_nonneg⟩
          · show t2.deadCloses + 1 ≤ 1
            have hq := hd2'.trans hdead0
            omega
          · intro hc
            exact absurd ((hi2'.trans hinit).symm.trans hc) (by simp)
          · intro _
            exact hz2
          · intro _
            exact hdyne
      · injection h with h
        subst h
        have htne : t.alive ≠ 1 := by
          intro hone
          rw [hone] at ha2'
          omega
        refine ⟨hinit, hdead0, ha2', hi2'.trans hinit, ?_, ?_, ?_, hinv2⟩
        · rw [hdy2']
          split_ifs <;> omega
        · rw [hd2', hdead0]
          simp [htne]
        · have hguard : e ≠ none ∨ t.alive = 1 := by
            rcases hg with hg | hg
            · right
              omega
            · left
              exact hg
          rw [if_pos hguard, hr2']
          rfl
  · rw [if_neg hg] at h
    injection h with h
    subst h
    push_neg at hg
    obtain ⟨hg1, hg2⟩ := hg
    have hng : ¬(e ≠ none ∨ t.alive = 1) := by
      push_neg
      exact ⟨hg2, by omega⟩
    refine ⟨hinit, hdead0, rfl, hinit, le_refl _, ?_, ?_, ht1⟩
    · show t.deadCloses ≠ 0 ↔ t.alive = 1
      rw [hdead0]
      constructor
      · intro hc
        omega
      · intro hc
        omega
    · show t.reason = _
      rw [if_neg hng]

lemma inv_of_reachesP {P : Option GoError → Prop} {t : Tomb} (h : ReachesP P t) : Inv t := by
  induction h with
  | zero => exact inv_zero
  | initStep _ ih => exact inv_init ih
  | goStep n _ ih => exact inv_go ih n
  | finishStep _ halive _ hrun ih => exact (run_cases ih halive hrun).2.2.2.2.2.2.2
  | killStep _ _ hkill ih =>
      exact inv_kill (inv_init ih) (init_initialized _) hkill

lemma inv_of_reaches {t : Tomb} (h : Reaches t) : Inv t := inv_of_reachesP h

lemma reachesP_mono {P Q : Option GoError → Prop} (hPQ : ∀ r, P r → Q r) {t : Tomb}
    (h : ReachesP P t) : ReachesP Q t := by
  induction h with
  | zero => exact ReachesP.zero
  | initStep _ ih => exact ReachesP.initStep ih
  | goStep n _ ih => exact ReachesP.goStep n ih
  | finishStep _ halive hP hrun ih => exact ReachesP.finishStep ih halive (hPQ _ hP) hrun
  | killStep _ hP hkill ih => exact ReachesP.killStep ih (hPQ _ hP) hkill

lemma reaches_extends {t u : Tomb} (ht : Reaches t) (h : Extends t u) : Reaches u := by
  induction h with
  | refl => exact ht
  | initStep _ ih => exact ReachesP.initStep ih
  | goStep n _ ih => exact ReachesP.goStep n ih
  | finishStep _ halive hrun ih => exact ReachesP.finishStep ih halive trivial hrun
  | killStep _ hkill ih => exact ReachesP.killStep ih trivial hkill

lemma go_frame (t : Tomb) (n : Nat) :
    (t.Go n).dyingCloses = t.dyingCloses ∧ (t.Go n).deadCloses = t.deadCloses ∧
      (t.Go n).initialized = true := by
  rw [go_char]
  obtain ⟨-, hdy, hdd⟩ := init_frame t
  split_ifs with h
  · exact ⟨hdy, hdd, init_initialized t⟩
  · exact ⟨hdy, hdd, init_initialized t⟩

lemma kill_mono {t u : Tomb} {r : Option GoError} (h : t.Kill r = some u) :
    t.dyingCloses ≤ u.dyingCloses ∧ u.deadCloses = t.deadCloses ∧ u.initialized = true := by
  unfold Tomb.Kill at h
  obtain ⟨-, -, hi, hd, hdy, -, -⟩ := kill_some h
  obtain ⟨-, hdy0, hdd0⟩ := init_frame t
  refine ⟨?_, hd.trans hdd0, hi.trans (init_initialized t)⟩
  rw [hdy, hdy0]
  split_ifs <;> omega

lemma extends_mono {t u : Tomb} (ht : Reaches t) (h : Extends t u) :
    t.dyingCloses ≤ u.dyingCloses ∧ t.deadCloses ≤ u.deadCloses ∧
      (t.initialized = true → u.initialized = true) := by
  induction h with
  | refl => exact ⟨le_refl _, le_refl _, fun h => h⟩
  | @initStep u1 hext ih =>
      obtain ⟨h1, h2, h3⟩ := ih
      obtain ⟨-, hdy, hdd⟩ := init_frame u1
      exact ⟨by omega, by omega, fun _ => init_initialized _⟩
  | @goStep u1 n hext ih =>
      obtain ⟨h1, h2, h3⟩ := ih
      obtain ⟨hdy, hdd, hi⟩ := go_frame u1 n
      exact ⟨by omega, by omega, fun _ => hi⟩
  | finishStep hext halive hrun ih =>
      obtain ⟨h1, h2, h3⟩ := ih
      have hu := inv_of_reaches (reaches_extends ht hext)
      obtain ⟨-, hdd0, -, hi, hdy, hdiff, -, hvinv⟩ := run_cases hu halive hrun
      refine ⟨by omega, ?_, fun _ => hi⟩
      have := hvinv.deadOnce
      omega
  | killStep hext hkill ih =>
      obtain ⟨h1, h2, h3⟩ := ih
      obtain ⟨hdy, hdd, hi⟩ := kill_mono hkill
      exact ⟨by omega, by omega, fun _ => hi⟩

lemma phase_le {t u : Tomb} (hdy : t.dyingCloses ≤ u.dyingCloses)
    (hdd : t.deadCloses ≤ u.deadCloses)
    (hi : t.initialized = true → u.initialized = true) :
    phaseIdx t ≤ phaseIdx u := by
  unfold phaseIdx
  split_ifs <;>
    first
      | omega
      | (exact absurd (hi (by assumption)) (by assumption))
      | simp_all

lemma init_reason_cases (t : Tomb) :
    (t.init).reason = t.reason ∨ (t.init).reason = some .stillAlive := by
  unfold Tomb.init
  split_ifs
  · exact Or.inl rfl
  · exact Or.inr rfl

lemma go_reason (t : Tomb) (n : Nat) : (t.Go n).reason = (t.init).reason := by
  rw [go_char]
  split_ifs <;> rfl

lemma clean_reason {t : Tomb}
    (h : ReachesP (fun r => r = none ∨ r = some .dying) t) :
    t.reason = some .stillAlive ∨ t.reason = none := by
  induction h with
  | zero => exact Or.inr rfl
  | initStep _ ih =>
      rcases init_reason_cases _ with hc | hc <;> rw [hc]
      · exact ih
      · exact Or.inl rfl
  | goStep n _ ih =>
      rw [go_reason]
      rcases init_reason_cases _ with hc | hc <;> rw [hc]
      · exact ih
      · exact Or.inl rfl
  | finishStep hprev halive hP hrun ih =>
      obtain ⟨-, -, -, -, -, -, hreas, -⟩ := run_cases (inv_of_reachesP hprev) halive hrun
      rw [hreas]
      split_ifs with c1
      · rcases hP with rfl | rfl <;> rcases ih with ih | ih <;> simp [reduceReason, ih]
      · exact ih
  | @killStep t1 u1 r1 hprev hP hkill ih =>
      unfold Tomb.Kill at hkill
      obtain ⟨-, -, -, -, -, hreas, -⟩ := kill_some hkill
      have hbase : (t1.init).reason = some .stillAlive ∨ (t1.init).reason = none := by
        rcases init_reason_cases t1 with hc | hc <;> rw [hc]
        · exact ih
        · exact Or.inl rfl
      rcases hP with rfl | rfl
      · rw [if_neg (by simp)] at hreas
        rw [hreas]
        split_ifs
        all_goals first
          | exact Or.inr rfl
          | exact hbase
      · rw [if_pos rfl] at hreas
        rw [hreas]
        exact hbase

lemma wait_char (t : Tomb) :
    t.Wait = if (t.init).deadCloses ≠ 0 then some (t.init).reason else none := rfl

lemma initialized_of_dead {t : Tomb} (hinv : Inv t) (hdead : t.deadCloses ≠ 0) :
    t.initialized = true := by
  by_contra hc
  have hz := hinv.uninit_zero (by simpa using hc)
  rw [hz] at hdead
  exact hdead rfl

lemma reason_none_of_dead_clean {t : Tomb}
    (h : ReachesP (fun r => r = none ∨ r = some .dying) t) (hdead : t.deadCloses ≠ 0) :
    t.reason = none := by
  have hinv := inv_of_reachesP h
  have hdying := hinv.dead_dying hdead
  rcases clean_reason h with hr | hr
  · exact absurd (hinv.still_iff.mp hr).2 hdying
  · exact hr

lemma wait_none_of_dead_clean {t : Tomb}
    (h : ReachesP (fun r => r = none ∨ r = some .dying) t) (hdead : t.deadCloses ≠ 0) :
    t.Wait = some none := by
  have hinv := inv_of_reachesP h
  have hinit := initialized_of_dead hinv hdead
  rw [wait_char, init_of_initialized hinit, if_pos hdead,
    reason_none_of_dead_clean h hdead]

lemma reaches_dead_example : Reaches (Tomb.mk true 0 1 1 none) := by
  have h1 : Reaches (zeroTomb.Go 1) := ReachesP.goStep 1 ReachesP.zero
  exact @ReachesP.finishStep (fun _ => True) (zeroTomb.Go 1) (Tomb.mk true 0 1 1 none)
    none h1 (by decide) trivial (by decide)

lemma reachesClean_dead_example :
    ReachesP (fun r => r = none ∨ r = some GoError.dying) (Tomb.mk true 0 1 1 none) := by
  have h1 : ReachesP (fun r => r = none ∨ r = some GoError.dying) (zeroTomb.Go 1) :=
    ReachesP.goStep 1 ReachesP.zero
  exact @ReachesP.finishStep (fun r => r = none ∨ r = some GoError.dying) (zeroTomb.Go 1)
    (Tomb.mk true 0 1 1 none) none h1 (by decide) (Or.inl rfl) (by decide)

lemma extends_dead_example : Extends zeroTomb (Tomb.mk true 0 1 1 none) := by
  have h1 : Extends zeroTomb (zeroTomb.Go 1) := Extends.goStep 1 (Extends.refl _)
  exact @Extends.finishStep zeroTomb (zeroTomb.Go 1) (Tomb.mk true 0 1 1 none)
    none h1 (by decide) (by decide)

/-- Claim C1: first genuine failure wins.  For every call `Kill(r)` with `r`
neither `ErrStillAlive` nor `ErrDying`, the call succeeds and the recorded
reason becomes `r` exactly when the current reason is the still-running
sentinel or nil, and is left unchanged when a real reason is already
recorded; a unit finishing cleanly (nil outcome) never erases a recorded
real failure; and in an execution where the only reasons ever supplied are
nil, the recorded reason stays nil or the sentinel, and `Wait` resolves to
no error once the tomb is dead. -/
theorem c1_first_failure_wins :
    (∀ (t : Tomb) (r : Option GoError), r ≠ some .stillAlive → r ≠ some .dying →
      ∃ u, t.Kill r = some u ∧
        u.reason = (if (t.init).reason = some .stillAlive ∨ (t.init).reason = none
          then r else (t.init).reason) ∧
        (∀ k, (t.init).reason = some (.real k) → u.reason = some (.real k))) ∧
    (∀ (t u : Tomb) (k : Nat), t.reason = some (.real k) → t.run none = some u →
      u.reason = some (.real k)) ∧
    (∀ t : Tomb, ReachesP (fun r => r = none) t →
      (t.reason = some .stillAlive ∨ t.reason = none) ∧
      (t.deadCloses ≠ 0 → t.Wait = some none)) := by
  refine ⟨?_, ?_, ?_⟩
  · intro t r h1 h2
    unfold Tomb.Kill Tomb.kill
    rw [if_neg h1, if_neg h2]
    by_cases c1 : (t.init).reason = some .stillAlive
    · rw [if_pos c1, if_pos (Or.inl c1)]
      refine ⟨_, rfl, rfl, ?_⟩
      intro k hk
      rw [hk] at c1
      cases c1
    · rw [if_neg c1]
      by_cases c2 : (t.init).reason = none
      · rw [if_pos c2, if_pos (Or.inr c2)]
        refine ⟨_, rfl, rfl, ?_⟩
        intro k hk
        rw [hk] at c2
        cases c2
      · rw [if_neg c2, if_neg (show ¬((t.init).reason = some .stillAlive ∨
            (t.init).reason = none) from by push_neg; exact ⟨c1, c2⟩)]
        exact ⟨_, rfl, rfl, fun k hk => hk⟩
  · intro t u k hk hrun
    rw [run_char] at hrun
    split_ifs at hrun with hg
    · rcases hkill : ({ t with alive := t.alive - 1 } : Tomb).kill none with _ | t2
      · rw [hkill] at hrun
        simp at hrun
      · rw [hkill, Option.map_some'] at hrun
        obtain ⟨-, -, -, -, -, hreas, -⟩ := kill_some hkill
        have hr2 : t2.reason = some (.real k) := by
          rw [hreas]
          simp [hk]
        split_ifs at hrun
        · injection hrun with hrun
          subst hrun
          exact hr2
        · injection hrun with hrun
          subst hrun
          exact hr2
    · injection hrun with hrun
      subst hrun
      exact hk
  · intro t h
    have hclean : ReachesP (fun r => r = none ∨ r = some .dying) t :=
      reachesP_mono (fun r hr => Or.inl hr) h
    refine ⟨clean_reason hclean, fun hdead => wait_none_of_dead_clean hclean hdead⟩

theorem c1_witness :
    ∃ u, (Tomb.mk true 0 1 0 (some (.real 0))).Kill (some (.real 1)) = some u ∧
      u.reason = (if ((Tomb.mk true 0 1 0 (some (.real 0))).init).reason = some .stillAlive ∨
          ((Tomb.mk true 0 1 0 (some (.real 0))).init).reason = none
        then some (.real 1) else ((Tomb.mk true 0 1 0 (some (.real 0))).init).reason) ∧
      (∀ k, ((Tomb.mk true 0 1 0 (some (.real 0))).init).reason = some (.real k) →
        u.reason = some (.real k)) :=
  c1_first_failure_wins.1 (Tomb.mk true 0 1 0 (some (.real 0))) (some (.real 1))
    (by decide) (by decide)

/-- Claim C2: dead exactly when the last unit finishes.  A reap step
decrements the alive count by one; the reason-reduction step is applied
exactly when the outcome is a non-nil error or the count reached zero
(expressed extensionally: the resulting reason is the 4.2 reduction of the
outcome into the current reason exactly under that guard and is untouched
otherwise); and the dead channel ends closed exactly when the finishing
unit was the last one alive. -/
theorem c2_dead_exactly_when_last_finishes :
    ∀ (t u : Tomb) (e : Option GoError), Reaches t → 0 < t.alive → t.run e = some u →
      u.alive = t.alive - 1 ∧
      (u.deadCloses ≠ 0 ↔ t.alive = 1) ∧
      u.reason = (if e ≠ none ∨ t.alive = 1 then reduceReason t.reason e else t.reason) := by
  intro t u e ht halive hrun
  obtain ⟨-, -, h3, -, -, h6, h7, -⟩ := run_cases (inv_of_reaches ht) halive hrun
  exact ⟨h3, h6, h7⟩

theorem c2_witness :
    (Tomb.mk true 0 1 1 none).alive = (zeroTomb.Go 1).alive - 1 ∧
    ((Tomb.mk true 0 1 1 none).deadCloses ≠ 0 ↔ (zeroTomb.Go 1).alive = 1) ∧
    (Tomb.mk true 0 1 1 none).reason =
      (if (none : Option GoError) ≠ none ∨ (zeroTomb.Go 1).alive = 1
       then reduceReason (zeroTomb.Go 1).reason none else (zeroTomb.Go 1).reason) :=
  c2_dead_exactly_when_last_finishes (zeroTomb.Go 1) (Tomb.mk true 0 1 1 none) none
    (ReachesP.goStep 1 ReachesP.zero) (by decide) (by decide)

/-- Claim C3: the cancellation-acknowledgement sentinel.  `kill ErrDying`
panics while the recorded reason is still `ErrStillAlive` and is a pure
no-op (the whole state unchanged) otherwise; calling `Kill ErrDying` on a
tomb that was never initialized also panics, since init records the
still-running sentinel first. -/
theorem c3_errdying_contract :
    ∀ t : Tomb,
      (t.reason = some .stillAlive → t.kill (some .dying) = none) ∧
      (t.reason ≠ some .stillAlive → t.kill (some .dying) = some t) ∧
      (t.initialized = false → t.Kill (some .dying) = none) := by
  intro t
  refine ⟨?_, ?_, ?_⟩
  · intro h
    unfold Tomb.kill
    rw [if_neg (by decide), if_pos rfl, if_pos h]
  · intro h
    unfold Tomb.kill
    rw [if_neg (by decide), if_pos rfl, if_neg h]
  · intro h
    unfold Tomb.Kill
    have hs : (t.init).reason = some .stillAlive := by
      unfold Tomb.init
      rw [if_neg (by simp [h])]
    unfold Tomb.kill
    rw [if_neg (by decide), if_pos rfl, if_pos hs]

theorem c3_witness :
    (Tomb.mk true 0 0 0 (some .stillAlive)).kill (some .dying) = none ∧
    (Tomb.mk true 0 1 0 (some (.real 5))).kill (some .dying) =
      some (Tomb.mk true 0 1 0 (some (.real 5))) :=
  ⟨(c3_errdying_contract (Tomb.mk true 0 0 0 (some .stillAlive))).1 (by decide),
   (c3_errdying_contract (Tomb.mk true 0 1 0 (some (.real 5)))).2.1 (by decide)⟩

/-- Claim C4: `Wait` blocks until the dead channel is closed (it has no
result while the channel is open), and once the tomb is dead it returns
the recorded reason, which is never `ErrStillAlive` nor `ErrDying`, and
a repeated `Wait` returns the same value; in an execution where every
supplied reason was nil or `ErrDying`, `Wait` on the dead tomb resolves
to no error. -/
theorem c4_wait_resolution_idempotent :
    (∀ t : Tomb, Reaches t →
      (t.deadCloses = 0 → t.Wait = none) ∧
      (t.deadCloses ≠ 0 → t.Wait = some t.reason ∧ t.reason ≠ some .stillAlive ∧
        t.reason ≠ some .dying ∧ (t.init).Wait = t.Wait)) ∧
    (∀ t : Tomb, ReachesP (fun r => r = none ∨ r = some .dying) t → t.deadCloses ≠ 0 →
      t.Wait = some none) := by
  refine ⟨?_, fun t h hdead => wait_none_of_dead_clean h hdead⟩
  intro t ht
  have hinv := inv_of_reaches ht
  constructor
  · intro h0
    rw [wait_char, if_neg]
    rw [(init_frame t).2.2, h0]
    simp
  · intro hdead
    have hinit := initialized_of_dead hinv hdead
    have hns : t.reason ≠ some .stillAlive := by
      intro hc
      exact (hinv.dead_dying hdead) (hinv.still_iff.mp hc).2
    refine ⟨?_, hns, hinv.no_dying, ?_⟩
    · rw [wait_char, init_of_initialized hinit, if_pos hdead]
    · rw [init_of_initialized hinit]

theorem c4_witness : (Tomb.mk true 0 1 1 none).Wait = some none :=
  c4_wait_resolution_idempotent.2 (Tomb.mk true 0 1 1 none)
    reachesClean_dead_example (by decide)

/-- Claim C5: introspection.  `Alive` is true exactly when `Err` returns
`ErrStillAlive`; `Err` returns `ErrStillAlive` exactly while no stop has
been requested (the dying channel unclosed); once the tomb is dead, `Err`
agrees with the value `Wait` returns; and after any stop request `Alive`
stays false through every further operation. -/
theorem c5_err_alive_introspection :
    ∀ t u : Tomb, Reaches t → Extends t u →
      (t.Alive = true ↔ t.Err = some .stillAlive) ∧
      (t.Err = some .stillAlive ↔ t.dyingCloses = 0) ∧
      (t.deadCloses ≠ 0 → t.Wait = some t.Err) ∧
      (t.dyingCloses ≠ 0 → u.Alive = false) := by
  have key : ∀ v : Tomb, Reaches v → (v.Err = some .stillAlive ↔ v.dyingCloses = 0) := by
    intro v hv
    have hii := (inv_init (inv_of_reaches hv)).still_iff
    rw [init_initialized] at hii
    obtain ⟨-, hdy, -⟩ := init_frame v
    rw [hdy] at hii
    simpa [Tomb.Err] using hii
  intro t u ht hext
  refine ⟨?_, key t ht, ?_, ?_⟩
  · simp [Tomb.Alive]
  · intro hdead
    have hd2 : (t.init).deadCloses ≠ 0 := by
      rw [(init_frame t).2.2]
      exact hdead
    rw [wait_char, if_pos hd2]
    rfl
  · intro hdy
    have hu := reaches_extends ht hext
    have hmono := (extends_mono ht hext).1
    have hne : u.Err ≠ some .stillAlive := by
      intro hc
      have := (key u hu).mp hc
      omega
    show (u.Err == some .stillAlive) = false
    rw [beq_eq_false_iff_ne]
    exact hne

theorem c5_witness : (Tomb.mk true 0 1 1 none).Alive = false :=
  (c5_err_alive_introspection (Tomb.mk true 0 1 1 none) (Tomb.mk true 0 1 1 none)
    reaches_dead_example (Extends.refl _)).2.2.2 (by decide)

/-- Claim C6: phase monotonicity and fire-once signals.  Along every
execution the phase (uninitialized, running, dying, dead) never moves
backward, and in every reachable state each channel has been closed at
most once, so no execution ever closes an already-closed channel. -/
theorem c6_phase_monotone_fire_once :
    ∀ t u : Tomb, Reaches t → Extends t u →
      phaseIdx t ≤ phaseIdx u ∧ u.dyingCloses ≤ 1 ∧ u.deadCloses ≤ 1 := by
  intro t u ht hext
  obtain ⟨h1, h2, h3⟩ := extends_mono ht hext
  have hu := inv_of_reaches (reaches_extends ht hext)
  exact ⟨phase_le h1 h2 h3, hu.dyingOnce, hu.deadOnce⟩

theorem c6_witness :
    phaseIdx zeroTomb ≤ phaseIdx (Tomb.mk true 0 1 1 none) ∧
    (Tomb.mk true 0 1 1 none).dyingCloses ≤ 1 ∧
    (Tomb.mk true 0 1 1 none).deadCloses ≤ 1 :=
  c6_phase_monotone_fire_once zeroTomb (Tomb.mk true 0 1 1 none)
    ReachesP.zero extends_dead_example

/-- Claim C7: registration on a dead tomb is a no-op.  If the dead channel
of a reachable tomb is closed, `Go` returns the state completely
unchanged: no unit is started and the count, reason and channels are
exactly as before. -/
theorem c7_go_dead_noop :
    ∀ (t : Tomb) (n : Nat), Reaches t → t.deadCloses ≠ 0 → t.Go n = t := by
  intro t n ht hdead
  have hinit := initialized_of_dead (inv_of_reaches ht) hdead
  rw [go_char, init_of_initialized hinit, if_pos hdead]

theorem c7_witness : (Tomb.mk true 0 1 1 none).Go 3 = Tomb.mk true 0 1 1 none :=
  c7_go_dead_noop (Tomb.mk true 0 1 1 none) 3 reaches_dead_example (by decide)

/-- Claim C9: the dying signal always precedes the dead signal.  In every
reachable state, a closed dead channel implies the dying channel is
closed as well, including on the path where the last unit exits cleanly
while the tomb is still running. -/
theorem c9_dying_closes_before_dead :
    ∀ t : Tomb, Reaches t → t.deadCloses ≠ 0 → t.dyingCloses ≠ 0 := by
  intro t ht
  exact (inv_of_reaches ht).dead_dying

theorem c9_witness : (Tomb.mk true 0 1 1 none).dyingCloses ≠ 0 :=
  c9_dying_closes_before_dead (Tomb.mk true 0 1 1 none) reaches_dead_example (by decide)

end Tomb1


namespace TombV2

/-- Claim C8: `Done` on the single-goroutine variant.  On any tomb with
nothing recorded (nil reason, both channels unclosed, not already dying),
a single `Done` call moves it through dying to dead in one step: both
channels end closed exactly once, the clean-stop sentinel is recorded,
and a subsequent `Wait` resolves it to no error. -/
theorem c8_done_clean_stop :
    ∀ t : Tomb, t.reason = none → t.dyingCloses = 0 → t.deadCloses = 0 →
      t.state ≠ VState.dying →
      t.Done = { state := .dying, dyingCloses := 1, deadCloses := 1,
                 reason := some .cleanStop } ∧
      (t.Done).Wait = some none := by
  intro t h1 h2 h3 h4
  obtain ⟨st, dy, dd, rs⟩ := t
  have h1x : rs = none := h1
  have h2x : dy = 0 := h2
  have h3x : dd = 0 := h3
  subst h1x h2x h3x
  cases st with
  | uninitialized => exact ⟨by decide, by decide⟩
  | running => exact ⟨by decide, by decide⟩
  | dying => exact absurd rfl h4

theorem c8_witness :
    zeroTomb.Done = Tomb.mk .dying 1 1 (some .cleanStop) ∧
      (zeroTomb.Done).Wait = some none :=
  c8_done_clean_stop zeroTomb rfl rfl rfl (by decide)

end TombV2
